import Mathlib

/-!
Verification of the `UniformReplay` experience store
(`src/surreal/replay/uniform_replay.py`).

The store keeps a dynamically grown list `_memory` of records together with a
write cursor `_next_idx`.  We embed the three mutating/querying methods
`_insert`, `_sample` and `_evict` as pure functions on an explicit state, with
Python's signed slice arithmetic modelled over `Int`, and prove the stated
invariants and functional-correctness properties over the states reachable
from the freshly constructed store.
-/

namespace SurrealReplay

variable {α : Type}

/-- State of a `UniformReplay` buffer: the backing list `self._memory` and the
write cursor `self._next_idx`.  The capacity `self._maxsize` is a fixed
parameter of the operations rather than part of the mutable state. -/
structure RState (α : Type) where
  memory : List α
  next_idx : ℕ
deriving DecidableEq, Repr

/-- State established by `UniformReplay.__init__`: `self._memory = []`,
`self._next_idx = 0`. -/
def initState (α : Type) : RState α := ⟨[], 0⟩

/-- Embedding of `UniformReplay._insert`: if the cursor is at or past the end
of the list the record is appended, otherwise the slot under the cursor is
overwritten and its previous occupant is returned as the evicted list; in both
branches the cursor then advances by one modulo `maxsize`.  Returns the new
state together with the `evicted` list. -/
def insertOp (maxsize : ℕ) (s : RState α) (exp : α) : RState α × List α :=
  if h : s.next_idx ≥ s.memory.length then
    (⟨s.memory ++ [exp], (s.next_idx + 1) % maxsize⟩, [])
  else
    (⟨s.memory.set s.next_idx exp, (s.next_idx + 1) % maxsize⟩,
      [s.memory.get ⟨s.next_idx, by omega⟩])

/-- Normalisation of one bound of a Python slice `l[i:j]` for a list of length
`n`: a negative bound counts from the end (clamped below at `0`), a
non-negative bound is clamped above at `n`. -/
def pyBound (n : ℕ) (i : ℤ) : ℕ :=
  if i < 0 then ((n : ℤ) + i).toNat else min i.toNat n

/-- Python slice `l[a:b]` (step 1) with possibly negative bounds. -/
def pySlice (l : List α) (a b : ℤ) : List α :=
  (l.take (pyBound l.length b)).drop (pyBound l.length a)

/-- Python `del l[a:b]` (step 1): the list with the slice `l[a:b]` removed. -/
def pyDelSlice (l : List α) (a b : ℤ) : List α :=
  l.take (pyBound l.length a) ++
    l.drop (max (pyBound l.length a) (pyBound l.length b))

/-- Embedding of `UniformReplay._evict`.  The count is an `Int` because the
Python code never validates it and negative counts exercise Python's negative
slice indexing.  Returns the new state, the `evicted` list, and the outcome of
the final `assert len(evicted) == evict_size` (`true` also for the early
return of the first branch, which skips the assertion). -/
def evictOp (s : RState α) (evict_size : ℤ) : RState α × List α × Bool :=
  if evict_size > (s.memory.length : ℤ) then
    (⟨[], 0⟩, s.memory, true)
  else
    let forward_space : ℤ := (s.memory.length : ℤ) - (s.next_idx : ℤ)
    if evict_size < forward_space then
      let evicted := pySlice s.memory (s.next_idx : ℤ) ((s.next_idx : ℤ) + evict_size)
      let memory1 := pyDelSlice s.memory (s.next_idx : ℤ) ((s.next_idx : ℤ) + evict_size)
      (⟨memory1, s.next_idx⟩, evicted, decide ((evicted.length : ℤ) = evict_size))
    else
      let evicted0 := pySlice s.memory (s.next_idx : ℤ) (s.memory.length : ℤ)
      let evict_from_left := evict_size - forward_space
      let evicted := evicted0 ++ pySlice s.memory 0 evict_from_left
      let memory1 := pyDelSlice s.memory (s.next_idx : ℤ) (s.memory.length : ℤ)
      let memory2 := pyDelSlice memory1 0 evict_from_left
      (⟨memory2, ((s.next_idx : ℤ) - evict_from_left).toNat⟩, evicted,
        decide ((evicted.length : ℤ) = evict_size))

/-- Embedding of `UniformReplay._sample`.  The method performs no writes, so
the state is returned unchanged as the first component.  `random.randint(0,
len - 1)` is called once per element of `range(batch_size)`; it raises
`ValueError` exactly when the memory is empty (modelled as `none`), and
otherwise yields an arbitrary in-range index, modelled by an oracle `draws`
reduced modulo the length.  For `batch_size ≤ 0` the comprehension is empty
and no call is made. -/
def sampleOp (s : RState α) (batch_size : ℤ) (draws : ℕ → ℕ) :
    RState α × Option (List α) :=
  (s,
    if batch_size ≤ 0 then some []
    else if h : s.memory.length = 0 then none
    else some ((List.range batch_size.toNat).map
      (fun i => s.memory.get
        ⟨draws i % s.memory.length, Nat.mod_lt _ (Nat.pos_of_ne_zero h)⟩)))

/-- States of a capacity-`maxsize` store reachable from the freshly
constructed store by any sequence of `_insert`, `_evict` (non-negative count)
and `_sample` calls. -/
inductive Reach (maxsize : ℕ) : RState α → Prop
  | init : Reach maxsize (initState α)
  | insert {s : RState α} (exp : α) : Reach maxsize s →
      Reach maxsize (insertOp maxsize s exp).1
  | evict {s : RState α} (count : ℕ) : Reach maxsize s →
      Reach maxsize (evictOp s (count : ℤ)).1
  | sample {s : RState α} (bs : ℤ) (draws : ℕ → ℕ) : Reach maxsize s →
      Reach maxsize (sampleOp s bs draws).1

/-- Stamped runs: the `n`-th insert inserts the record `n`, so a record's
value is its insertion time and "least-recently-inserted" means "numerically
smallest".  The second index is the number of inserts performed so far. -/
inductive SReach (maxsize : ℕ) : RState ℕ → ℕ → Prop
  | init : SReach maxsize (initState ℕ) 0
  | insert {s : RState ℕ} {n : ℕ} : SReach maxsize s n →
      SReach maxsize (insertOp maxsize s n).1 (n + 1)
  | evict {s : RState ℕ} {n : ℕ} (count : ℕ) : SReach maxsize s n →
      SReach maxsize (evictOp s (count : ℤ)).1 n
  | sample {s : RState ℕ} {n : ℕ} (bs : ℤ) (draws : ℕ → ℕ) : SReach maxsize s n →
      SReach maxsize (sampleOp s bs draws).1 n

/-- Contents of the store in oldest-first (FIFO) order: the rotation of the
backing list that starts at the cursor. -/
def chron (s : RState α) : List α := s.memory.drop s.next_idx ++ s.memory.take s.next_idx

theorem pyBound_le (n : ℕ) (i : ℤ) : pyBound n i ≤ n := by
  unfold pyBound
  split
  · omega
  · exact Nat.min_le_right _ _

theorem pyBound_natCast (n a : ℕ) (h : a ≤ n) : pyBound n (a : ℤ) = a := by
  unfold pyBound
  rw [if_neg (by omega)]
  simp only [Int.toNat_natCast]
  omega

theorem pySlice_natCast (l : List α) (a b : ℕ) (ha : a ≤ l.length) (hb : b ≤ l.length) :
    pySlice l (a : ℤ) (b : ℤ) = (l.take b).drop a := by
  unfold pySlice
  rw [pyBound_natCast _ _ ha, pyBound_natCast _ _ hb]

theorem pyDelSlice_natCast (l : List α) (a b : ℕ) (ha : a ≤ l.length) (hb : b ≤ l.length) :
    pyDelSlice l (a : ℤ) (b : ℤ) = l.take a ++ l.drop (max a b) := by
  unfold pyDelSlice
  rw [pyBound_natCast _ _ ha, pyBound_natCast _ _ hb]

theorem pyBound_zero (n : ℕ) : pyBound n 0 = 0 := by
  unfold pyBound
  rw [if_neg (by omega)]
  simp

theorem pySlice_zero_natCast (l : List α) (b : ℕ) (hb : b ≤ l.length) :
    pySlice l 0 (b : ℤ) = l.take b := by
  unfold pySlice
  rw [pyBound_zero, pyBound_natCast _ _ hb, List.drop_zero]

theorem pyDelSlice_zero_natCast (l : List α) (b : ℕ) (hb : b ≤ l.length) :
    pyDelSlice l 0 (b : ℤ) = l.drop b := by
  unfold pyDelSlice
  rw [pyBound_zero, pyBound_natCast _ _ hb]
  simp

theorem insertOp_append {m : ℕ} {s : RState α} (e : α) (h : s.memory.length ≤ s.next_idx) :
    insertOp m s e = (⟨s.memory ++ [e], (s.next_idx + 1) % m⟩, []) := by
  unfold insertOp
  rw [dif_pos h]

theorem insertOp_overwrite {m : ℕ} {s : RState α} (e : α) (h : s.next_idx < s.memory.length) :
    insertOp m s e = (⟨s.memory.set s.next_idx e, (s.next_idx + 1) % m⟩,
      [s.memory.get ⟨s.next_idx, h⟩]) := by
  unfold insertOp
  rw [dif_neg (by omega)]

theorem evictOp_all {s : RState α} {count : ℤ} (h : (s.memory.length : ℤ) < count) :
    evictOp s count = (⟨[], 0⟩, s.memory, true) := by
  unfold evictOp
  rw [if_pos (by omega)]

theorem evictOp_forward {s : RState α} {count : ℕ} (hk : s.next_idx ≤ s.memory.length)
    (h2 : s.next_idx + count < s.memory.length) :
    evictOp s (count : ℤ) =
      (⟨s.memory.take s.next_idx ++ s.memory.drop (s.next_idx + count), s.next_idx⟩,
        (s.memory.take (s.next_idx + count)).drop s.next_idx, true) := by
  unfold evictOp
  rw [if_neg (by omega)]
  simp only
  rw [if_pos (by omega)]
  have hcast : (s.next_idx : ℤ) + (count : ℤ) = ((s.next_idx + count : ℕ) : ℤ) := by push_cast; ring
  rw [hcast, pySlice_natCast _ _ _ hk (by omega), pyDelSlice_natCast _ _ _ hk (by omega)]
  have hmax : max s.next_idx (s.next_idx + count) = s.next_idx + count := by omega
  rw [hmax]
  have hlen : ((s.memory.take (s.next_idx + count)).drop s.next_idx).length = count := by
    simp only [List.length_drop, List.length_take]
    omega
  simp [hlen]

theorem evictOp_wrap {s : RState α} {count : ℕ} (hk : s.next_idx ≤ s.memory.length)
    (h3 : s.memory.length ≤ s.next_idx + count) (hle : count ≤ s.memory.length) :
    evictOp s (count : ℤ) =
      (⟨(s.memory.take s.next_idx).drop (s.next_idx + count - s.memory.length),
          s.memory.length - count⟩,
        s.memory.drop s.next_idx ++ s.memory.take (s.next_idx + count - s.memory.length),
        true) := by
  unfold evictOp
  rw [if_neg (by omega)]
  simp only
  rw [if_neg (by omega)]
  have hefl : (count : ℤ) - ((s.memory.length : ℤ) - (s.next_idx : ℤ)) =
      ((s.next_idx + count - s.memory.length : ℕ) : ℤ) := by omega
  rw [hefl]
  rw [pySlice_natCast _ _ _ hk le_rfl,
    pySlice_zero_natCast _ _ (by omega),
    pyDelSlice_natCast _ _ _ hk le_rfl]
  have hmax : max s.next_idx s.memory.length = s.memory.length := by omega
  rw [hmax, List.drop_of_length_le le_rfl, List.append_nil, List.take_of_length_le le_rfl]
  have hlen1 : (s.memory.take s.next_idx).length = s.next_idx := by
    simp only [List.length_take]; omega
  have hb : s.next_idx + count - s.memory.length ≤ (s.memory.take s.next_idx).length := by
    omega
  rw [pyDelSlice_zero_natCast _ _ hb]
  have hlen2 : (s.memory.drop s.next_idx ++
      s.memory.take (s.next_idx + count - s.memory.length)).length = count := by
    simp only [List.length_append, List.length_drop, List.length_take]
    omega
  have hidx : ((s.next_idx : ℤ) - ((s.next_idx + count - s.memory.length : ℕ) : ℤ)).toNat =
      s.memory.length - count := by omega
  rw [hidx]
  simp [hlen2]

/-- Basic structural invariant of every reachable state: the cursor never
points past the end of the backing list, the list never exceeds the capacity,
and the cursor stays strictly below the capacity. -/
theorem reach_inv {m : ℕ} {s : RState α} (h : Reach m s) (hm : 0 < m) :
    s.next_idx ≤ s.memory.length ∧ s.memory.length ≤ m ∧ s.next_idx < m := by
  induction h with
  | init => simpa [initState] using hm
  | @insert s e h ih =>
    obtain ⟨h1, h2, h3⟩ := ih
    by_cases hc : s.memory.length ≤ s.next_idx
    · rw [insertOp_append e hc]
      have hk : s.next_idx = s.memory.length := le_antisymm h1 hc
      have hlt : s.memory.length < m := hk ▸ h3
      have hmod₁ := Nat.mod_le (s.next_idx + 1) m
      have hmod₂ := Nat.mod_lt (s.next_idx + 1) hm
      simp only [List.length_append, List.length_cons, List.length_nil]
      omega
    · rw [insertOp_overwrite e (by omega)]
      have hmod₁ := Nat.mod_le (s.next_idx + 1) m
      have hmod₂ := Nat.mod_lt (s.next_idx + 1) hm
      simp only [List.length_set]
      omega
  | @evict s c h ih =>
    obtain ⟨h1, h2, h3⟩ := ih
    by_cases hgt : s.memory.length < c
    · rw [evictOp_all (by exact_mod_cast hgt)]
      simpa using hm
    · by_cases h2c : s.next_idx + c < s.memory.length
      · rw [evictOp_forward h1 h2c]
        simp only [List.length_append, List.length_take, List.length_drop]
        omega
      · rw [evictOp_wrap h1 (by omega) (by omega)]
        simp only [List.length_drop, List.length_take]
        omega
  | @sample s bs draws h ih => exact ih

/-- Stamped runs are in particular ordinary runs. -/
theorem sreach_reach {m : ℕ} {s : RState ℕ} {n : ℕ} (h : SReach m s n) : Reach m s := by
  induction h with
  | init => exact .init
  | @insert s n h ih => exact ih.insert n
  | @evict s n c h ih => exact ih.evict c
  | @sample s n bs draws h ih => exact ih.sample bs draws

theorem chron_perm (s : RState α) : (chron s).Perm s.memory := by
  unfold chron
  exact List.perm_append_comm.trans (by rw [List.take_append_drop])

theorem chron_length (s : RState α) (hk : s.next_idx ≤ s.memory.length) :
    (chron s).length = s.memory.length := by
  unfold chron
  simp only [List.length_append, List.length_drop, List.length_take]
  omega

theorem chron_of_next_eq_length {s : RState α} (h : s.next_idx = s.memory.length) :
    chron s = s.memory := by
  unfold chron
  rw [h, List.drop_of_length_le le_rfl, List.take_of_length_le le_rfl, List.nil_append]

/-- When the cursor is strictly inside the backing list, the FIFO order
starts with the record under the cursor. -/
theorem chron_cons {s : RState α} (hk : s.next_idx < s.memory.length) :
    chron s = s.memory.get ⟨s.next_idx, hk⟩ ::
      (s.memory.drop (s.next_idx + 1) ++ s.memory.take s.next_idx) := by
  unfold chron
  rw [List.drop_eq_getElem_cons hk, List.cons_append, List.get_eq_getElem]

/-- In both non-degenerate eviction branches the new FIFO order is the old
FIFO order with its first `count` elements removed; the wholesale branch
yields the empty list, which is the same thing. -/
theorem chron_evict {s : RState α} (c : ℕ) (hk : s.next_idx ≤ s.memory.length) :
    chron (evictOp s (c : ℤ)).1 = (chron s).drop c := by
  by_cases hgt : s.memory.length < c
  · rw [evictOp_all (by exact_mod_cast hgt)]
    rw [List.drop_of_length_le (by rw [chron_length s hk]; omega)]
    rfl
  · by_cases h2c : s.next_idx + c < s.memory.length
    · rw [evictOp_forward hk h2c]
      unfold chron
      simp only
      have hlen : (s.memory.take s.next_idx).length = s.next_idx := by
        simp only [List.length_take]; omega
      have e1 : (s.memory.take s.next_idx ++ s.memory.drop (s.next_idx + c)).drop s.next_idx
          = s.memory.drop (s.next_idx + c) := by
        rw [List.drop_append_eq_append_drop, hlen, List.drop_of_length_le (le_of_eq hlen),
          Nat.sub_self, List.drop_zero, List.nil_append]
      have e2 : (s.memory.take s.next_idx ++ s.memory.drop (s.next_idx + c)).take s.next_idx
          = s.memory.take s.next_idx := by
        rw [List.take_append_eq_append_take, hlen, Nat.sub_self, List.take_zero,
          List.append_nil, List.take_take, Nat.min_self]
      have e3 : (s.memory.drop s.next_idx ++ s.memory.take s.next_idx).drop c
          = s.memory.drop (s.next_idx + c) ++ s.memory.take s.next_idx := by
        rw [List.drop_append_eq_append_drop, List.drop_drop, List.length_drop]
        have hns : c - (s.memory.length - s.next_idx) = 0 := by omega
        rw [hns, List.drop_zero, Nat.add_comm]
      rw [e1, e2, e3]
    · rw [evictOp_wrap hk (by omega) (by omega)]
      unfold chron
      simp only
      have hlen : ((s.memory.take s.next_idx).drop
          (s.next_idx + c - s.memory.length)).length = s.memory.length - c := by
        simp only [List.length_drop, List.length_take]
        omega
      have hfull : (s.memory.drop s.next_idx).length ≤ c := by
        simp only [List.length_drop]; omega
      have e3 : (s.memory.drop s.next_idx ++ s.memory.take s.next_idx).drop c
          = (s.memory.take s.next_idx).drop (s.next_idx + c - s.memory.length) := by
        rw [List.drop_append_eq_append_drop, List.drop_of_length_le hfull,
          List.nil_append, List.length_drop]
        congr 1
        omega
      rw [List.drop_of_length_le (le_of_eq hlen), List.take_of_length_le (le_of_eq hlen),
        List.nil_append, e3]

/-- When at most the whole store is evicted, the evicted list is exactly the
first `count` elements of the FIFO order. -/
theorem evict_evicted_take {s : RState α} (c : ℕ) (hk : s.next_idx ≤ s.memory.length)
    (hc : c ≤ s.memory.length) :
    (evictOp s (c : ℤ)).2.1 = (chron s).take c := by
  by_cases h2c : s.next_idx + c < s.memory.length
  · rw [evictOp_forward hk h2c]
    unfold chron
    simp only
    have e1 : (s.memory.drop s.next_idx ++ s.memory.take s.next_idx).take c
        = (s.memory.drop s.next_idx).take c := by
      rw [List.take_append_eq_append_take, List.length_drop]
      have hns : c - (s.memory.length - s.next_idx) = 0 := by omega
      rw [hns, List.take_zero, List.append_nil]
    rw [e1, List.drop_take]
    congr 1
    omega
  · rw [evictOp_wrap hk (by omega) hc]
    unfold chron
    simp only
    have hfull : (s.memory.drop s.next_idx).length ≤ c := by
      simp only [List.length_drop]; omega
    rw [List.take_append_eq_append_take, List.take_of_length_le hfull, List.length_drop,
      List.take_take]
    congr 2
    omega

/-- The number of records removed by `_evict` is the count clamped at the
store size, and the store shrinks by exactly that number. -/
theorem evict_lengths {s : RState α} (c : ℕ) (hk : s.next_idx ≤ s.memory.length) :
    (evictOp s (c : ℤ)).2.1.length = min c s.memory.length ∧
      (evictOp s (c : ℤ)).1.memory.length = s.memory.length - c := by
  by_cases hgt : s.memory.length < c
  · rw [evictOp_all (by exact_mod_cast hgt)]
    constructor
    · simp only; omega
    · simp only [List.length_nil]; omega
  · by_cases h2c : s.next_idx + c < s.memory.length
    · rw [evictOp_forward hk h2c]
      constructor
      · simp only [List.length_drop, List.length_take]; omega
      · simp only [List.length_append, List.length_take, List.length_drop]; omega
    · rw [evictOp_wrap hk (by omega) (by omega)]
      constructor
      · simp only [List.length_append, List.length_drop, List.length_take]; omega
      · simp only [List.length_drop, List.length_take]; omega

/-- The list left in memory by `_evict` is made of records that were already
stored. -/
theorem evict_mem_subset {s : RState α} (c : ℕ) (hk : s.next_idx ≤ s.memory.length) :
    ∀ x ∈ (evictOp s (c : ℤ)).1.memory, x ∈ s.memory := by
  by_cases hgt : s.memory.length < c
  · rw [evictOp_all (by exact_mod_cast hgt)]
    simp
  · by_cases h2c : s.next_idx + c < s.memory.length
    · rw [evictOp_forward hk h2c]
      intro x hx
      simp only [List.mem_append] at hx
      rcases hx with hx | hx
      · exact List.mem_of_mem_take hx
      · exact List.mem_of_mem_drop hx
    · rw [evictOp_wrap hk (by omega) (by omega)]
      intro x hx
      exact List.mem_of_mem_take (List.mem_of_mem_drop hx)

/-- After an append-mode insert the FIFO order is the old backing list with
the new record at the end. -/
theorem chron_insert_append {m : ℕ} {s : RState α} (e : α)
    (hk : s.next_idx = s.memory.length) (hlt : s.next_idx < m) :
    chron (insertOp m s e).1 = s.memory ++ [e] := by
  rw [insertOp_append e (le_of_eq hk.symm)]
  unfold chron
  simp only
  rcases Nat.lt_or_ge (s.next_idx + 1) m with hsm | hsm
  · rw [Nat.mod_eq_of_lt hsm, hk]
    rw [List.drop_of_length_le (by simp), List.take_of_length_le (by simp), List.nil_append]
  · have hfull : s.next_idx + 1 = m := by omega
    rw [hfull, Nat.mod_self, List.drop_zero, List.take_zero, List.append_nil]

/-- After an overwrite-mode insert the FIFO order is the old FIFO order with
its head removed and the new record appended. -/
theorem chron_insert_overwrite {m : ℕ} {s : RState α} (e : α)
    (hk : s.next_idx < s.memory.length) (hlen : s.memory.length ≤ m) :
    chron (insertOp m s e).1 =
      (s.memory.drop (s.next_idx + 1) ++ s.memory.take s.next_idx) ++ [e] := by
  rw [insertOp_overwrite e hk]
  unfold chron
  simp only [List.set_eq_take_cons_drop e hk]
  have hlen1 : (s.memory.take s.next_idx).length = s.next_idx := by
    simp only [List.length_take]; omega
  rcases Nat.lt_or_ge (s.next_idx + 1) m with hsm | hsm
  · rw [Nat.mod_eq_of_lt hsm]
    have e1 : (s.memory.take s.next_idx ++ e :: s.memory.drop (s.next_idx + 1)).drop
        (s.next_idx + 1) = s.memory.drop (s.next_idx + 1) := by
      rw [List.drop_append_eq_append_drop, hlen1, List.drop_of_length_le (by omega),
        List.nil_append]
      have h1 : s.next_idx + 1 - s.next_idx = 1 := by omega
      rw [h1, List.drop_succ_cons, List.drop_zero]
    have e2 : (s.memory.take s.next_idx ++ e :: s.memory.drop (s.next_idx + 1)).take
        (s.next_idx + 1) = s.memory.take s.next_idx ++ [e] := by
      rw [List.take_append_eq_append_take, hlen1, List.take_take]
      have h1 : s.next_idx + 1 - s.next_idx = 1 := by omega
      have h2 : min (s.next_idx + 1) s.next_idx = s.next_idx := by omega
      rw [h1, h2, List.take_succ_cons, List.take_zero]
    rw [e1, e2, List.append_assoc]
  · have hfull : s.next_idx + 1 = m := by omega
    have hlen2 : s.memory.length = s.next_idx + 1 := by omega
    rw [hfull, Nat.mod_self, List.drop_zero, List.take_zero, List.append_nil]
    rw [List.drop_of_length_le (by omega), List.nil_append]

/-- Main ordering invariant of stamped runs: the FIFO order is strictly
increasing in insertion time, and every stored record was inserted before
`n`, the number of inserts so far.  This is the FIFO/oldest-first eviction
contract: the record at the cursor is always the oldest one still stored. -/
theorem sreach_sorted {m : ℕ} {s : RState ℕ} {n : ℕ} (h : SReach m s n) (hm : 0 < m) :
    (chron s).Sorted (· < ·) ∧ ∀ x ∈ s.memory, x < n := by
  induction h with
  | init =>
    constructor
    · simp [chron, initState]
    · simp [initState]
  | @insert s n h ih =>
    obtain ⟨hsort, hbound⟩ := ih
    obtain ⟨h1, h2, h3⟩ := reach_inv (sreach_reach h) hm
    by_cases hc : s.memory.length ≤ s.next_idx
    · have hk : s.next_idx = s.memory.length := le_antisymm h1 hc
      constructor
      · rw [chron_insert_append n hk h3]
        rw [chron_of_next_eq_length hk] at hsort
        refine List.pairwise_append.mpr ⟨hsort, List.pairwise_singleton _ _, ?_⟩
        intro a ha b hb
        rw [List.mem_singleton] at hb
        exact hb ▸ hbound a ha
      · intro x hx
        rw [insertOp_append n hc] at hx
        simp only [List.mem_append, List.mem_singleton] at hx
        rcases hx with hx | hx
        · exact lt_trans (hbound x hx) (Nat.lt_succ_self n)
        · omega
    · have hk : s.next_idx < s.memory.length := by omega
      constructor
      · rw [chron_insert_overwrite n hk h2]
        rw [chron_cons hk] at hsort
        have htail := List.Pairwise.of_cons hsort
        refine List.pairwise_append.mpr ⟨htail, List.pairwise_singleton _ _, ?_⟩
        intro a ha b hb
        rw [List.mem_singleton] at hb
        subst hb
        rcases List.mem_append.mp ha with ha | ha
        · exact hbound a (List.mem_of_mem_drop ha)
        · exact hbound a (List.mem_of_mem_take ha)
      · intro x hx
        rw [insertOp_overwrite n hk] at hx
        simp only at hx
        rcases List.mem_or_eq_of_mem_set hx with hx | hx
        · exact lt_trans (hbound x hx) (Nat.lt_succ_self n)
        · omega
  | @evict s n c h ih =>
    obtain ⟨hsort, hbound⟩ := ih
    obtain ⟨h1, h2, h3⟩ := reach_inv (sreach_reach h) hm
    constructor
    · rw [chron_evict c h1]
      exact List.Pairwise.sublist (List.drop_sublist _ _) hsort
    · intro x hx
      exact hbound x (evict_mem_subset c h1 x hx)
  | @sample s n bs draws h ih => exact ih

theorem reach_step_insert {m : ℕ} {s t : RState α} (e : α) (h : Reach m s)
    (heq : (insertOp m s e).1 = t) : Reach m t := heq ▸ h.insert e

theorem reach_step_evict {m : ℕ} {s t : RState α} (c : ℕ) (h : Reach m s)
    (heq : (evictOp s (c : ℤ)).1 = t) : Reach m t := heq ▸ h.evict c

theorem sreach_step_insert {m : ℕ} {s t : RState ℕ} {n : ℕ} (h : SReach m s n)
    (heq : (insertOp m s n).1 = t) : SReach m t (n + 1) := heq ▸ h.insert

theorem sreach_step_evict {m : ℕ} {s t : RState ℕ} {n : ℕ} (c : ℕ) (h : SReach m s n)
    (heq : (evictOp s (c : ℤ)).1 = t) : SReach m t n := heq ▸ h.evict c

/-- A store of capacity 3 holding one record after one insert. -/
theorem reach3_one : Reach 3 (⟨[0], 1⟩ : RState ℕ) :=
  reach_step_insert 0 Reach.init (by decide)

/-- A store of capacity 3 after two inserts. -/
theorem reach3_two : Reach 3 (⟨[0, 1], 2⟩ : RState ℕ) :=
  reach_step_insert 1 reach3_one (by decide)

/-- A full store of capacity 3 after three inserts; the cursor has wrapped
to 0. -/
theorem reach3_full : Reach 3 (⟨[0, 1, 2], 0⟩ : RState ℕ) :=
  reach_step_insert 2 reach3_two (by decide)

/-- A full wrapped store of capacity 3 after four inserts: the fourth insert
overwrote slot 0, so the cursor is 1 and slot 1 holds the oldest record. -/
theorem reach3_wrapped : Reach 3 (⟨[3, 1, 2], 1⟩ : RState ℕ) :=
  reach_step_insert 3 reach3_full (by decide)

/-- The state after additionally evicting one record from the wrapped full
store through the contiguous (forward) branch: the store is no longer full
but the cursor (1) no longer equals the length (2). -/
theorem reach3_after_evict : Reach 3 (⟨[3, 2], 1⟩ : RState ℕ) :=
  reach_step_evict 1 reach3_wrapped (by decide)

theorem sreach3_one : SReach 3 (⟨[0], 1⟩ : RState ℕ) 1 :=
  sreach_step_insert SReach.init (by decide)

theorem sreach3_two : SReach 3 (⟨[0, 1], 2⟩ : RState ℕ) 2 :=
  sreach_step_insert sreach3_one (by decide)

theorem sreach3_full : SReach 3 (⟨[0, 1, 2], 0⟩ : RState ℕ) 3 :=
  sreach_step_insert sreach3_two (by decide)

/-- Stamped run of capacity 3 reaching the wrapped full store. -/
theorem sreach3_wrapped : SReach 3 (⟨[3, 1, 2], 1⟩ : RState ℕ) 4 :=
  sreach_step_insert sreach3_full (by decide)

theorem sreach2_one : SReach 2 (⟨[0], 1⟩ : RState ℕ) 1 :=
  sreach_step_insert SReach.init (by decide)

/-- Stamped run of capacity 2 reaching the full store `[0, 1]` with the
cursor back at 0. -/
theorem sreach2_full : SReach 2 (⟨[0, 1], 0⟩ : RState ℕ) 2 :=
  sreach_step_insert sreach2_one (by decide)

/-- C1 (counterexample): the reachable state `⟨[3,2], 1⟩` of a capacity-3
store (reached by four inserts and one contiguous-branch evict) has
`len(slots) = 2 < 3 = capacity`, yet `insert` does not append: it overwrites
slot 1 and returns a non-empty evicted list, because the contiguous evict
branch left the cursor (1) strictly below the length (2). -/
theorem c1_insert_filling_counterexample :
    Reach 3 (⟨[3, 2], 1⟩ : RState ℕ) ∧
    (⟨[3, 2], 1⟩ : RState ℕ).memory.length < 3 ∧
    (insertOp 3 (⟨[3, 2], 1⟩ : RState ℕ) 4).2 ≠ [] ∧
    (insertOp 3 (⟨[3, 2], 1⟩ : RState ℕ) 4).1.memory ≠
      (⟨[3, 2], 1⟩ : RState ℕ).memory ++ [4] :=
  ⟨reach3_after_evict, by decide, by decide, by decide⟩

/-- C1 (amended): for every reachable state in which the cursor equals the
length (which holds while the store only fills, but can fail after a
contiguous-branch evict) and the store is not full, `insert` appends the
record to the end of the slots, returns an empty evicted sequence, and
afterwards the cursor equals the new length modulo the capacity (hence the
length itself while the store is still not full, and 0 when it just became
full). -/
theorem c1_insert_appends_of_cursor_eq_length {m : ℕ} {s : RState α} (e : α)
    (_h : Reach m s) (hc : s.next_idx = s.memory.length) (_hlt : s.memory.length < m) :
    (insertOp m s e).1.memory = s.memory ++ [e] ∧ (insertOp m s e).2 = [] ∧
    (insertOp m s e).1.next_idx = (insertOp m s e).1.memory.length % m := by
  rw [insertOp_append e (le_of_eq hc.symm)]
  refine ⟨rfl, rfl, ?_⟩
  simp only [List.length_append, List.length_cons, List.length_nil]
  rw [hc]

/-- Witness for the amended C1 at the reachable one-element state. -/
theorem c1_insert_appends_witness :
    (insertOp 3 (⟨[0], 1⟩ : RState ℕ) 7).1.memory = (⟨[0], 1⟩ : RState ℕ).memory ++ [7] ∧
    (insertOp 3 (⟨[0], 1⟩ : RState ℕ) 7).2 = [] ∧
    (insertOp 3 (⟨[0], 1⟩ : RState ℕ) 7).1.next_idx =
      (insertOp 3 (⟨[0], 1⟩ : RState ℕ) 7).1.memory.length % 3 :=
  c1_insert_appends_of_cursor_eq_length 7 reach3_one (by decide) (by decide)

/-- C2: on every reachable state of a stamped run (records are their
insertion times, so the least-recently-inserted record still present is the
numerically smallest stored record), one `insert` call evicts at most one
record, and when it evicts one, that record is stored and is the minimum of
the stored records. -/
theorem c2_insert_displaces_oldest {m : ℕ} {s : RState ℕ} {n : ℕ}
    (h : SReach m s n) (hm : 0 < m) :
    (insertOp m s n).2.length ≤ 1 ∧
    ∀ x, (insertOp m s n).2 = [x] → x ∈ s.memory ∧ ∀ y ∈ s.memory, x ≤ y := by
  obtain ⟨h1, h2, h3⟩ := reach_inv (sreach_reach h) hm
  obtain ⟨hsort, hbound⟩ := sreach_sorted h hm
  by_cases hc : s.memory.length ≤ s.next_idx
  · rw [insertOp_append n hc]
    exact ⟨by simp, fun x hx => absurd hx (by simp)⟩
  · have hk : s.next_idx < s.memory.length := by omega
    rw [insertOp_overwrite n hk]
    refine ⟨by simp, ?_⟩
    intro x hx
    simp only [List.cons.injEq, and_true] at hx
    subst hx
    refine ⟨by rw [List.get_eq_getElem]; exact List.getElem_mem _, ?_⟩
    intro y hy
    rw [chron_cons hk] at hsort
    have hy2 : y ∈ chron s := (chron_perm s).mem_iff.mpr hy
    rw [chron_cons hk] at hy2
    rcases List.mem_cons.mp hy2 with hhead | htail
    · exact le_of_eq hhead.symm
    · exact le_of_lt (List.rel_of_sorted_cons hsort y htail)

/-- Witness for C2 at the full stamped capacity-2 store, where the third
insert evicts the first record. -/
theorem c2_insert_displaces_oldest_witness :
    (insertOp 2 (⟨[0, 1], 0⟩ : RState ℕ) 2).2.length ≤ 1 ∧
    ∀ x, (insertOp 2 (⟨[0, 1], 0⟩ : RState ℕ) 2).2 = [x] →
      x ∈ (⟨[0, 1], 0⟩ : RState ℕ).memory ∧
      ∀ y ∈ (⟨[0, 1], 0⟩ : RState ℕ).memory, x ≤ y :=
  c2_insert_displaces_oldest sreach2_full (by decide)

/-- C3 (counterexample): in the reachable wrapped full stamped store
`⟨[3,1,2], 1⟩` (oldest-first order `[1,2,3]`), `evict(4)` (count >
size 3) returns the backing list `[3,1,2]` in storage order, which is not
oldest-first, and differs from the `[1,2,3]` returned by `evict(3)`; so
`evict(n)` with `n > size` does not return the contents oldest-first and
does not behave identically to `evict(size)`. -/
theorem c3_evict_overshoot_order_counterexample :
    SReach 3 (⟨[3, 1, 2], 1⟩ : RState ℕ) 4 ∧
    (evictOp (⟨[3, 1, 2], 1⟩ : RState ℕ) ((4 : ℕ) : ℤ)).2.1 = [3, 1, 2] ∧
    ¬ ([3, 1, 2] : List ℕ).Sorted (· < ·) ∧
    (evictOp (⟨[3, 1, 2], 1⟩ : RState ℕ) ((3 : ℕ) : ℤ)).2.1 = [1, 2, 3] ∧
    (evictOp (⟨[3, 1, 2], 1⟩ : RState ℕ) ((4 : ℕ) : ℤ)).2.1 ≠
      (evictOp (⟨[3, 1, 2], 1⟩ : RState ℕ) ((3 : ℕ) : ℤ)).2.1 :=
  ⟨sreach3_wrapped, by decide, by decide, by decide, by decide⟩

/-- C3 (amended): for every reachable state and `count ≥ len(slots)`,
`evict(count)` empties the store, resets the cursor to 0 and never raises;
the returned sequence is a permutation of the previous contents, namely the
oldest-first order when `count = len(slots)` but the raw storage order (the
backing list itself, oldest-first only when the cursor is 0) when
`count > len(slots)`. -/
theorem c3_evict_ge_size_empties {m : ℕ} {s : RState α} (c : ℕ)
    (h : Reach m s) (hm : 0 < m) (hge : s.memory.length ≤ c) :
    (evictOp s (c : ℤ)).1 = ⟨[], 0⟩ ∧ (evictOp s (c : ℤ)).2.2 = true ∧
    (evictOp s (c : ℤ)).2.1 = (if s.memory.length < c then s.memory else chron s) ∧
    ((evictOp s (c : ℤ)).2.1).Perm (chron s) := by
  obtain ⟨h1, h2, h3⟩ := reach_inv h hm
  by_cases hgt : s.memory.length < c
  · rw [evictOp_all (by exact_mod_cast hgt)]
    exact ⟨rfl, rfl, by rw [if_pos hgt], (chron_perm s).symm⟩
  · have hceq : c = s.memory.length := by omega
    rw [evictOp_wrap h1 (by omega) (by omega)]
    have he : s.next_idx + c - s.memory.length = s.next_idx := by omega
    have hz : s.memory.length - c = 0 := by omega
    constructor
    · have hmem : (s.memory.take s.next_idx).drop (s.next_idx + c - s.memory.length) = [] :=
        List.drop_of_length_le (by rw [List.length_take]; omega)
      rw [hmem, hz]
    refine ⟨rfl, ?_, ?_⟩
    · rw [if_neg (by omega), he]
      rfl
    · rw [he]
      exact List.Perm.refl _

/-- Witness for the amended C3 at the reachable full capacity-3 store with
`count = 5 > 3 = size`. -/
theorem c3_evict_ge_size_empties_witness :
    (evictOp (⟨[0, 1, 2], 0⟩ : RState ℕ) ((5 : ℕ) : ℤ)).1 = ⟨[], 0⟩ ∧
    (evictOp (⟨[0, 1, 2], 0⟩ : RState ℕ) ((5 : ℕ) : ℤ)).2.2 = true ∧
    (evictOp (⟨[0, 1, 2], 0⟩ : RState ℕ) ((5 : ℕ) : ℤ)).2.1 =
      (if (⟨[0, 1, 2], 0⟩ : RState ℕ).memory.length < 5
        then (⟨[0, 1, 2], 0⟩ : RState ℕ).memory
        else chron (⟨[0, 1, 2], 0⟩ : RState ℕ)) ∧
    ((evictOp (⟨[0, 1, 2], 0⟩ : RState ℕ) ((5 : ℕ) : ℤ)).2.1).Perm
      (chron (⟨[0, 1, 2], 0⟩ : RState ℕ)) :=
  c3_evict_ge_size_empties 5 reach3_full (by decide) (by decide)

theorem pyBound_nonneg (n : ℕ) (i : ℤ) (h0 : 0 ≤ i) (hn : i ≤ (n : ℤ)) :
    pyBound n i = i.toNat := by
  unfold pyBound
  rw [if_neg (by omega)]
  omega

/-- On a state satisfying the cursor invariant, a negative count always
falls into the contiguous branch (its condition `evict_size < forward_space`
holds because `forward_space ≥ 0`), so the trailing assertion runs and
always fails: the evicted slice has non-negative length, never equal to the
negative count. -/
theorem evictOp_neg {s : RState α} {c : ℤ} (hk : s.next_idx ≤ s.memory.length)
    (hneg : c < 0) :
    evictOp s c =
      (⟨pyDelSlice s.memory (s.next_idx : ℤ) ((s.next_idx : ℤ) + c), s.next_idx⟩,
        pySlice s.memory (s.next_idx : ℤ) ((s.next_idx : ℤ) + c), false) := by
  unfold evictOp
  rw [if_neg (by omega)]
  simp only
  rw [if_pos (by omega)]
  have hne : ¬ (((pySlice s.memory (s.next_idx : ℤ) ((s.next_idx : ℤ) + c)).length : ℤ) = c) := by
    have := Int.natCast_nonneg (pySlice s.memory (s.next_idx : ℤ) ((s.next_idx : ℤ) + c)).length
    omega
  rw [decide_eq_false hne]

/-- C4 (counterexample): on the reachable full capacity-3 store
`⟨[0,1,2], 0⟩`, calling `evict(-1)` does raise (the internal assertion
fails, `assertOk = false`), but it is not free of partial mutation: the
Python slice `memory[0:-1] = [0,1]` is deleted before the assertion runs,
leaving the store at `⟨[2], 0⟩`. -/
theorem c4_evict_negative_mutates_counterexample :
    Reach 3 (⟨[0, 1, 2], 0⟩ : RState ℕ) ∧
    evictOp (⟨[0, 1, 2], 0⟩ : RState ℕ) (-1) = (⟨[2], 0⟩, [0, 1], false) ∧
    (evictOp (⟨[0, 1, 2], 0⟩ : RState ℕ) (-1)).1 ≠ (⟨[0, 1, 2], 0⟩ : RState ℕ) :=
  ⟨reach3_full, by decide, by decide⟩

/-- C4 (amended): on every reachable state a negative `count` makes `evict`
fail its internal assertion (so the call always errors, though with an
`AssertionError` rather than an upfront argument check), and the store is
left unmodified when `cursor + count ≥ 0`; when `cursor + count < 0` the
deleted slice can be non-empty, so the store may be mutated before the
error (see the counterexample). -/
theorem c4_evict_negative_always_raises {m : ℕ} {s : RState α} (c : ℤ)
    (h : Reach m s) (hm : 0 < m) (hneg : c < 0) :
    (evictOp s c).2.2 = false ∧
    (0 ≤ (s.next_idx : ℤ) + c → (evictOp s c).1 = s) := by
  obtain ⟨h1, h2, h3⟩ := reach_inv h hm
  rw [evictOp_neg h1 hneg]
  refine ⟨rfl, ?_⟩
  intro hplus
  simp only
  unfold pyDelSlice
  rw [pyBound_natCast _ _ h1]
  have hb : pyBound s.memory.length ((s.next_idx : ℤ) + c) ≤ s.next_idx := by
    rw [pyBound_nonneg _ _ hplus (by omega)]
    omega
  have hmax : max s.next_idx (pyBound s.memory.length ((s.next_idx : ℤ) + c)) =
      s.next_idx := by omega
  rw [hmax, List.take_append_drop]

/-- Witness for the amended C4 at the reachable state `⟨[0,1], 2⟩` with
`count = -1`: the assertion fails and, since `cursor + count = 1 ≥ 0`, the
state is untouched. -/
theorem c4_evict_negative_always_raises_witness :
    (evictOp (⟨[0, 1], 2⟩ : RState ℕ) (-1)).2.2 = false ∧
    (0 ≤ (((⟨[0, 1], 2⟩ : RState ℕ).next_idx : ℕ) : ℤ) + (-1) →
      (evictOp (⟨[0, 1], 2⟩ : RState ℕ) (-1)).1 = (⟨[0, 1], 2⟩ : RState ℕ)) :=
  c4_evict_negative_always_raises (-1) reach3_two (by decide) (by decide)

/-- C5 (counterexample): `sample` called with the non-positive
`batch_size = 0` on the reachable empty store does not fail: the index list
comprehension ranges over `range(0) = []`, `randint` is never called, and
the call returns the empty list, although the claim predicts failure both
for the empty store and for a non-positive batch size. -/
theorem c5_sample_nonpositive_succeeds_counterexample :
    Reach 1 (initState ℕ) ∧ (initState ℕ).memory.length = 0 ∧
    (sampleOp (initState ℕ) 0 (fun k => k)).2 = some [] :=
  ⟨Reach.init, by decide, by decide⟩

/-- C5 (amended): `sample(batch_size)` fails (raises `ValueError` from
`randint`, modelled as `none`) if and only if the store is empty AND
`batch_size ≥ 1`; for non-positive `batch_size` it instead succeeds with an
empty result, even on an empty store. -/
theorem c5_sample_none_iff (s : RState α) (bs : ℤ) (draws : ℕ → ℕ) :
    (sampleOp s bs draws).2 = none ↔ (s.memory.length = 0 ∧ 1 ≤ bs) := by
  unfold sampleOp
  simp only
  by_cases hbs : bs ≤ 0
  · rw [if_pos hbs]
    simp only [reduceCtorEq, false_iff, not_and]
    intro _
    omega
  · rw [if_neg hbs]
    by_cases hlen : s.memory.length = 0
    · rw [dif_pos hlen]
      simp only [true_iff, hlen, true_and]
      omega
    · rw [dif_neg hlen]
      simp [hlen]

/-- C6: for every reachable state and `0 ≤ count < len(slots)`, if
`count < len(slots) - cursor` then `evict` removes and returns exactly the
contiguous slice `slots[cursor : cursor + count]` and leaves the cursor
unchanged; otherwise it removes and returns the forward span
`slots[cursor:]` followed by the front slice `slots[:extra]`
(`extra = count - (len(slots) - cursor)`), in that order, and decrements the
cursor by `extra`. -/
theorem c6_evict_partial_cases {m : ℕ} {s : RState α} (c : ℕ)
    (h : Reach m s) (hm : 0 < m) (hlt : c < s.memory.length) :
    (c < s.memory.length - s.next_idx →
      evictOp s (c : ℤ) =
        (⟨s.memory.take s.next_idx ++ s.memory.drop (s.next_idx + c), s.next_idx⟩,
          (s.memory.take (s.next_idx + c)).drop s.next_idx, true)) ∧
    (s.memory.length - s.next_idx ≤ c →
      evictOp s (c : ℤ) =
        (⟨(s.memory.take s.next_idx).drop (c - (s.memory.length - s.next_idx)),
            s.next_idx - (c - (s.memory.length - s.next_idx))⟩,
          s.memory.drop s.next_idx ++
            s.memory.take (c - (s.memory.length - s.next_idx)), true)) := by
  obtain ⟨h1, h2, h3⟩ := reach_inv h hm
  constructor
  · intro hfwd
    exact evictOp_forward h1 (by omega)
  · intro hwrap
    have e1 : c - (s.memory.length - s.next_idx) = s.next_idx + c - s.memory.length := by
      omega
    have e2 : s.next_idx - (s.next_idx + c - s.memory.length) =
        s.memory.length - c := by omega
    rw [e1, e2]
    exact evictOp_wrap h1 (by omega) (by omega)

/-- Witness for C6 at the reachable wrapped full store `⟨[3,1,2], 1⟩` with
`count = 1`. -/
theorem c6_evict_partial_cases_witness :
    (1 < (⟨[3, 1, 2], 1⟩ : RState ℕ).memory.length - (⟨[3, 1, 2], 1⟩ : RState ℕ).next_idx →
      evictOp (⟨[3, 1, 2], 1⟩ : RState ℕ) ((1 : ℕ) : ℤ) =
        (⟨(⟨[3, 1, 2], 1⟩ : RState ℕ).memory.take (⟨[3, 1, 2], 1⟩ : RState ℕ).next_idx ++
            (⟨[3, 1, 2], 1⟩ : RState ℕ).memory.drop ((⟨[3, 1, 2], 1⟩ : RState ℕ).next_idx + 1),
            (⟨[3, 1, 2], 1⟩ : RState ℕ).next_idx⟩,
          ((⟨[3, 1, 2], 1⟩ : RState ℕ).memory.take
            ((⟨[3, 1, 2], 1⟩ : RState ℕ).next_idx + 1)).drop
              (⟨[3, 1, 2], 1⟩ : RState ℕ).next_idx, true)) ∧
    ((⟨[3, 1, 2], 1⟩ : RState ℕ).memory.length - (⟨[3, 1, 2], 1⟩ : RState ℕ).next_idx ≤ 1 →
      evictOp (⟨[3, 1, 2], 1⟩ : RState ℕ) ((1 : ℕ) : ℤ) =
        (⟨((⟨[3, 1, 2], 1⟩ : RState ℕ).memory.take (⟨[3, 1, 2], 1⟩ : RState ℕ).next_idx).drop
            (1 - ((⟨[3, 1, 2], 1⟩ : RState ℕ).memory.length -
              (⟨[3, 1, 2], 1⟩ : RState ℕ).next_idx)),
            (⟨[3, 1, 2], 1⟩ : RState ℕ).next_idx -
              (1 - ((⟨[3, 1, 2], 1⟩ : RState ℕ).memory.length -
                (⟨[3, 1, 2], 1⟩ : RState ℕ).next_idx))⟩,
          (⟨[3, 1, 2], 1⟩ : RState ℕ).memory.drop (⟨[3, 1, 2], 1⟩ : RState ℕ).next_idx ++
            (⟨[3, 1, 2], 1⟩ : RState ℕ).memory.take
              (1 - ((⟨[3, 1, 2], 1⟩ : RState ℕ).memory.length -
                (⟨[3, 1, 2], 1⟩ : RState ℕ).next_idx)), true)) :=
  c6_evict_partial_cases 1 reach3_wrapped (by decide) (by decide)

/-- C7: for every reachable state and `0 ≤ count ≤ len(slots)` the internal
post-condition assertion of `evict` succeeds: the evicted sequence has
length exactly `count` and the store shrinks by exactly `count`. -/
theorem c7_evict_assert_holds {m : ℕ} {s : RState α} (c : ℕ)
    (h : Reach m s) (hm : 0 < m) (hle : c ≤ s.memory.length) :
    (evictOp s (c : ℤ)).2.2 = true ∧ (evictOp s (c : ℤ)).2.1.length = c ∧
    (evictOp s (c : ℤ)).1.memory.length + c = s.memory.length := by
  obtain ⟨h1, h2, h3⟩ := reach_inv h hm
  obtain ⟨hlen1, hlen2⟩ := evict_lengths c h1
  refine ⟨?_, ?_, ?_⟩
  · by_cases h2c : s.next_idx + c < s.memory.length
    · rw [evictOp_forward h1 h2c]
    · rw [evictOp_wrap h1 (by omega) hle]
  · rw [hlen1]
    omega
  · rw [hlen2]
    omega

/-- Witness for C7 at the reachable full store `⟨[0,1,2], 0⟩` with
`count = 2`. -/
theorem c7_evict_assert_holds_witness :
    (evictOp (⟨[0, 1, 2], 0⟩ : RState ℕ) ((2 : ℕ) : ℤ)).2.2 = true ∧
    (evictOp (⟨[0, 1, 2], 0⟩ : RState ℕ) ((2 : ℕ) : ℤ)).2.1.length = 2 ∧
    (evictOp (⟨[0, 1, 2], 0⟩ : RState ℕ) ((2 : ℕ) : ℤ)).1.memory.length + 2 =
      (⟨[0, 1, 2], 0⟩ : RState ℕ).memory.length :=
  c7_evict_assert_holds 2 reach3_full (by decide) (by decide)

/-- C8: for every reachable state and all `a, b ≥ 0`, evicting `a` and then
`b` with no intervening insert removes in total as many records as the
single call `evict(min(a + b, s))` from the same starting state, `s` being
the size before the first call. -/
theorem c8_evict_split_total {m : ℕ} {s : RState α} (a b : ℕ)
    (h : Reach m s) (hm : 0 < m) :
    (evictOp s (a : ℤ)).2.1.length +
        (evictOp (evictOp s (a : ℤ)).1 (b : ℤ)).2.1.length =
      (evictOp s ((min (a + b) s.memory.length : ℕ) : ℤ)).2.1.length := by
  obtain ⟨h1, h2, h3⟩ := reach_inv h hm
  obtain ⟨ha1, ha2⟩ := evict_lengths a h1
  obtain ⟨hb1, hb2⟩ := evict_lengths b (reach_inv (h.evict a) hm).1
  obtain ⟨hc1, hc2⟩ := evict_lengths (min (a + b) s.memory.length) h1
  rw [ha1, hb1, hc1, ha2]
  omega

/-- Witness for C8 at the reachable full store `⟨[0,1,2], 0⟩` with
`a = b = 2`. -/
theorem c8_evict_split_total_witness :
    (evictOp (⟨[0, 1, 2], 0⟩ : RState ℕ) ((2 : ℕ) : ℤ)).2.1.length +
        (evictOp (evictOp (⟨[0, 1, 2], 0⟩ : RState ℕ) ((2 : ℕ) : ℤ)).1 ((2 : ℕ) : ℤ)).2.1.length =
      (evictOp (⟨[0, 1, 2], 0⟩ : RState ℕ)
        ((min (2 + 2) (⟨[0, 1, 2], 0⟩ : RState ℕ).memory.length : ℕ) : ℤ)).2.1.length :=
  c8_evict_split_total 2 2 reach3_full (by decide)

/-- C9: on every reachable non-empty state and for every positive
`batch_size`, `sample` succeeds, returns exactly `batch_size` records, each
of which is an element of the current slots (for any choice of in-range
random indices, here any oracle `draws`), and leaves the state (slots and
cursor) unchanged. -/
theorem c9_sample_spec {m : ℕ} {s : RState α} (bs : ℤ) (draws : ℕ → ℕ)
    (_h : Reach m s) (hpos : 1 ≤ s.memory.length) (hbs : 1 ≤ bs) :
    (sampleOp s bs draws).1 = s ∧
    ∃ out, (sampleOp s bs draws).2 = some out ∧ (out.length : ℤ) = bs ∧
      ∀ x ∈ out, x ∈ s.memory := by
  refine ⟨rfl, ?_⟩
  unfold sampleOp
  simp only
  rw [if_neg (by omega), dif_neg (by omega)]
  refine ⟨_, rfl, ?_, ?_⟩
  · rw [List.length_map, List.length_range]
    exact Int.toNat_of_nonneg (by omega)
  · intro x hx
    simp only [List.mem_map] at hx
    obtain ⟨i, _, hi⟩ := hx
    rw [← hi, List.get_eq_getElem]
    exact List.getElem_mem _

/-- Witness for C9 at the reachable one-element store with
`batch_size = 2`. -/
theorem c9_sample_spec_witness :
    (sampleOp (⟨[0], 1⟩ : RState ℕ) 2 (fun k => k)).1 = (⟨[0], 1⟩ : RState ℕ) ∧
    ∃ out, (sampleOp (⟨[0], 1⟩ : RState ℕ) 2 (fun k => k)).2 = some out ∧
      (out.length : ℤ) = 2 ∧ ∀ x ∈ out, x ∈ (⟨[0], 1⟩ : RState ℕ).memory :=
  c9_sample_spec 2 (fun k => k) reach3_one (by decide) (by decide)

/-- C10: every state reachable from a freshly constructed store of positive
capacity by inserts, samples and non-negative evicts satisfies
`0 ≤ cursor ≤ len(slots) ≤ capacity` and `cursor < capacity`; in
particular `insert` either appends at the end (`cursor = len(slots)`) or
overwrites an existing slot in bounds, and never indexes out of range. -/
theorem c10_reach_cursor_size_invariant {m : ℕ} {s : RState α}
    (h : Reach m s) (hm : 0 < m) :
    s.next_idx ≤ s.memory.length ∧ s.memory.length ≤ m ∧ s.next_idx < m :=
  reach_inv h hm

/-- Witness for C10 at the reachable state `⟨[3,2], 1⟩`. -/
theorem c10_reach_cursor_size_invariant_witness :
    (⟨[3, 2], 1⟩ : RState ℕ).next_idx ≤ (⟨[3, 2], 1⟩ : RState ℕ).memory.length ∧
    (⟨[3, 2], 1⟩ : RState ℕ).memory.length ≤ 3 ∧
    (⟨[3, 2], 1⟩ : RState ℕ).next_idx < 3 :=
  c10_reach_cursor_size_invariant reach3_after_evict (by decide)

end SurrealReplay
